import Mathlib

/-!
Verification of the embsh debug-shell library (shallow embedding).

Shallow embedding of `src/include/embsh/command_registry.hpp`,
`src/include/embsh/line_editor.hpp` and `src/include/embsh/telnet_server.hpp`.
Bytes are modelled as `Nat` (values 0..255), C buffers as `List Nat`
(stale bytes beyond the tracked length are kept, since C-string reads
can see them), C strings as the byte list up to the first NUL.
Compile-time capacities use their default values from the source:
`EMBSH_LINE_BUF_SIZE = 256`, `EMBSH_HISTORY_SIZE = 16`,
`EMBSH_MAX_ARGS = 32`, `EMBSH_MAX_COMMANDS = 64`.

Loops are translated with an explicit fuel argument so that every
definition is structurally recursive and kernel-reducible; each wrapper
passes fuel `len + 1`, which strictly exceeds the loop variant
`length - i` of the corresponding C loop (each iteration either
increments `i` or decrements `length`), so the fuel is never exhausted.
-/

set_option maxRecDepth 16384

namespace Embsh

/-- Bytes of a Lean string literal (all source messages are ASCII). -/
def strBytes (s : String) : List Nat := s.data.map Char.toNat

/-- Read byte `i` of a buffer (out-of-range reads give 0; all modelled
reads are in range). -/
def bget (bf : List Nat) (i : Nat) : Nat := bf.getD i 0

/-- Write byte `i` of a buffer. -/
def bset (bf : List Nat) (i v : Nat) : List Nat := bf.set i v

/-- C-string content starting at offset `p`: bytes up to the first NUL. -/
def cstr (bf : List Nat) (p : Nat) : List Nat :=
  (bf.drop p).takeWhile (fun b => b ≠ 0)

/-- `std::memmove(&cmd[i], &cmd[i+1], length - i - 1)`: bytes
`[i, length-2]` take the values of bytes `[i+1, length-1]`; byte
`length-1` keeps its old value (it is duplicated), bytes `≥ length`
are untouched. -/
def shiftL (bf : List Nat) (i len : Nat) : List Nat :=
  bf.take i ++ ((bf.drop (i + 1)).take (len - 1 - i)) ++ bf.drop (len - 1)

/-- ASCII space or tab, the separators of `ShellSplit`. -/
def isWs (b : Nat) : Bool := b == 32 || b == 9

/-- `while (i < length && (cmd[i] == ' ' || cmd[i] == '\t')) { cmd[i] = 0; ++i; }`
(the leading-whitespace loop of `ShellSplit`). -/
def skipWsF : Nat → List Nat → Nat → Nat → List Nat × Nat
  | 0, bf, i, _ => (bf, i)
  | fuel + 1, bf, i, len =>
      if i < len && isWs (bget bf i) then skipWsF fuel (bset bf i 0) (i + 1) len
      else (bf, i)

def skipWs (bf : List Nat) (i len : Nat) : List Nat × Nat :=
  skipWsF (len + 1) bf i len

/-- `while (i < length && cmd[i] != ' ' && cmd[i] != '\t') ++i;`
(the unquoted-argument scan of `ShellSplit`). -/
def scanWordF : Nat → List Nat → Nat → Nat → Nat
  | 0, _, i, _ => i
  | fuel + 1, bf, i, len =>
      if i < len && !isWs (bget bf i) then scanWordF fuel bf (i + 1) len
      else i

def scanWord (bf : List Nat) (i len : Nat) : Nat :=
  scanWordF (len + 1) bf i len

/-- The quoted-argument scan of `ShellSplit`:
`while (i < length && cmd[i] != quote)`; a backslash with a following
byte inside the tracked length is removed by shifting the remainder left
(`--length`), any other byte advances `i`.  Returns the updated buffer,
`i` and `length`. -/
def scanQuotedF : Nat → List Nat → Nat → Nat → Nat → List Nat × Nat × Nat
  | 0, bf, i, len, _ => (bf, i, len)
  | fuel + 1, bf, i, len, q =>
      if i < len && bget bf i != q then
        if bget bf i == 92 && i + 1 < len then
          scanQuotedF fuel (shiftL bf i len) i (len - 1) q
        else
          scanQuotedF fuel bf (i + 1) len q
      else (bf, i, len)

def scanQuoted (bf : List Nat) (i len q : Nat) : List Nat × Nat × Nat :=
  scanQuotedF (len + 1) bf i len q

/-- Outer loop of `ShellSplit`
(`while (i < length && argc < EMBSH_MAX_ARGS)`).  Returns the final
buffer, `argc`, and the list of `argv` offsets in the order they were
stored. -/
def splitLoopF : Nat → List Nat → Nat → Nat → Nat → List Nat → List Nat × Nat × List Nat
  | 0, bf, _, _, argc, starts => (bf, argc, starts)
  | fuel + 1, bf, i, len, argc, starts =>
      if i < len && argc < 32 then
        let p := skipWs bf i len
        let bf1 := p.1
        let i1 := p.2
        if i1 < len then
          if bget bf1 i1 == 34 || bget bf1 i1 == 39 then
            -- Quoted argument: overwrite the opening quote, record the
            -- start just after it, scan to the closing quote.
            let q := bget bf1 i1
            let bf2 := bset bf1 i1 0
            let i2 := i1 + 1
            if i2 < len then
              let r := scanQuoted bf2 i2 len q
              let bf3 := r.1
              let i3 := r.2.1
              let len3 := r.2.2
              if i3 < len3 then
                splitLoopF fuel (bset bf3 i3 0) (i3 + 1) len3 (argc + 1) (starts ++ [i2])
              else
                splitLoopF fuel bf3 i3 len3 (argc + 1) (starts ++ [i2])
            else (bf2, argc, starts)
          else
            -- Unquoted argument.
            splitLoopF fuel bf1 (scanWord bf1 i1 len) len (argc + 1) (starts ++ [i1])
        else (bf1, argc, starts)
      else (bf, argc, starts)

/-- `ShellSplit(cmd, length, argv)` on a buffer `bf` whose tracked length
is `len` (the buffer holds at least `len + 1` bytes; in every caller byte
`len` exists, and stale bytes past it are part of `bf`). -/
def shellSplitBuf (bf : List Nat) (len : Nat) : List Nat × Nat × List Nat :=
  splitLoopF (len + 1) bf 0 len 0 []

/-- `ShellSplit` called as in the unit tests and `ExecuteLine`: the line
content plus its NUL terminator, tracked length = content length.
Returns `argc` and the `argv` tokens read back as C strings from the
final buffer. -/
def shellSplit (line : List Nat) : Nat × List (List Nat) :=
  let r := shellSplitBuf (line ++ [0]) line.length
  (r.2.1, r.2.2.map (cstr r.1))

/-- Specification-side token count: the number of maximal runs of
non-whitespace bytes in `bf[i..len)`.  `inTok` records whether position
`i - 1` was inside a run; a position is counted iff it is non-whitespace
and not preceded by a non-whitespace position. -/
def tokCountF : Nat → List Nat → Nat → Nat → Bool → Nat
  | 0, _, _, _, _ => 0
  | fuel + 1, bf, i, len, inTok =>
      if i < len then
        (if isWs (bget bf i) = false && inTok = false then 1 else 0) +
          tokCountF fuel bf (i + 1) len (!isWs (bget bf i))
      else 0

def tokCountFrom (bf : List Nat) (i len : Nat) (inTok : Bool) : Nat :=
  tokCountF (len + 1) bf i len inTok

/-- Number of whitespace-separated tokens of a line. -/
def tokCount (line : List Nat) : Nat :=
  tokCountFrom line 0 line.length false

/-- `embsh::ShellError` (types.hpp). -/
inductive ShellError
  | kOk
  | kRegistryFull
  | kDuplicateName
  | kAuthFailed
  | kPortInUse
  | kAlreadyRunning
  | kNotRunning
  | kDeviceOpenFailed
  | kInvalidArgument
deriving DecidableEq, Repr

/-- `embsh::CmdEntry`: registered command descriptor.  `name` and `desc`
are the pointed-to C strings (NUL-free byte lists); the callback and
context pointers are opaque and modelled as numbers. -/
structure CmdEntry where
  name : List Nat
  desc : List Nat
  fn : Nat
  ctx : Nat
deriving DecidableEq, Repr

/-- `embsh::CommandRegistry`: the first `count_` slots of `cmds_`, in
registration order (slots past `count_` are never read). -/
structure Registry where
  cmds : List CmdEntry
deriving DecidableEq, Repr

/-- `CommandRegistry::Register(name, fn, ctx, desc)`.  Returns the
updated registry together with `none` on success or the `ShellError`;
on error the registry is returned unchanged (the C++ method mutates
nothing on the error paths). -/
def rregister (r : Registry) (name : List Nat) (fn ctx : Nat) (desc : List Nat) :
    Registry × Option ShellError :=
  if r.cmds.any (fun c => c.name == name) then
    (r, some .kDuplicateName)
  else if r.cmds.length ≥ 64 then
    (r, some .kRegistryFull)
  else
    (⟨r.cmds ++ [⟨name, desc, fn, ctx⟩]⟩, none)

/-- `CommandRegistry::Find(name)`: first entry whose name matches. -/
def rfind (r : Registry) (name : List Nat) : Option CmdEntry :=
  r.cmds.find? (fun c => c.name == name)

/-- `j` loop of `AutoComplete`: length of the common prefix of two
NUL-free names (the C loop reads the strings byte by byte and stops at
the first mismatch; a terminating NUL of the shorter string mismatches
the other's non-NUL byte). -/
def lcpLen : List Nat → List Nat → Nat
  | a :: as, b :: bs => if a = b then lcpLen as bs + 1 else 0
  | _, _ => 0

/-- `CommandRegistry::AutoComplete(prefix, out_buf, buf_size)`: returns
the match count and the content stored into `out_buf` (strncmp with the
prefix length succeeds exactly when `pre` is a prefix of the name). -/
def autoComplete (r : Registry) (pre : List Nat) (bufSize : Nat) : Nat × List Nat :=
  if bufSize = 0 then (0, [])
  else
    match r.cmds.filter (fun c => pre.isPrefixOf c.name) with
    | [] => (0, [])
    | [c] => (1, c.name.take (bufSize - 1))
    | c :: cs =>
        let common := cs.foldl (fun com other => min com (lcpLen c.name other.name))
          c.name.length
        ((c :: cs).length, c.name.take (min common (bufSize - 1)))

/-- `ShellPrintf(fmt, ...)`: the C `vsnprintf` into the 512-byte stack
buffer is abstracted by its would-be output `formatted` (so the int it
returns is `formatted.length` and the buffer holds the first 511 bytes
plus a NUL).  `sink` is the thread-local `detail::CurrentOutput()`
(`none` = no write callback installed).  Returns the status and the list
of write calls forwarded to the sink. -/
def shellPrintf (sink : Option Nat) (formatted : List Nat) : Int × List (List Nat) :=
  match sink with
  | none => (-1, [])
  | some _ =>
      if formatted.length > 0 then
        ((formatted.length : Int), [formatted.take 511])
      else ((formatted.length : Int), [])

/-- `Session::IacState`. -/
inductive IacState
  | kNormal
  | kIac
  | kNego
  | kSub
deriving DecidableEq, Repr

/-- `editor::FilterIac`: one step of the telnet IAC automaton.  Returns
the next state and the char the C function returns, as a byte value
(`0` = the byte was consumed). -/
def filterIac (st : IacState) (b : Nat) : IacState × Nat :=
  match st with
  | .kNormal => if b = 255 then (.kIac, 0) else (.kNormal, b)
  | .kIac =>
      if 251 ≤ b ∧ b ≤ 254 then (.kNego, 0)
      else if b = 250 then (.kSub, 0)
      else (.kNormal, if b = 255 then 255 else 0)
  | .kNego => (.kNormal, 0)
  | .kSub => if b = 255 then (.kIac, 0) else (.kSub, 0)

/-- `Session::EscState`. -/
inductive EscState
  | kNone
  | kEsc
  | kBracket
deriving DecidableEq, Repr

/-- `embsh::Session` (the fields the editor reads or writes; the
descriptors and I/O callbacks are environment, and writes to the peer do
not feed back into the session state).  `line_buf` and each history slot
are the full fixed-size byte arrays, stale bytes included. -/
structure Session where
  line_buf : List Nat := List.replicate 256 0
  line_pos : Nat := 0
  history : List (List Nat) := List.replicate 16 (List.replicate 256 0)
  hist_count : Nat := 0
  hist_write : Nat := 0
  hist_nav : Nat := 0
  hist_browsing : Bool := false
  telnet_mode : Bool := false
  esc_state : EscState := .kNone
  iac_state : IacState := .kNormal
  active : Bool := true
deriving DecidableEq, Repr

def sessionInit : Session := {}

/-- `editor::PushHistory`: insert `line_buf` (a C string of length
`line_pos`) into the ring unless it is empty or repeats the previous
entry; `strcmp == 0` is equality of the two C strings. -/
def pushHistory (s : Session) : Session :=
  if s.line_pos = 0 then s
  else
    if s.hist_count > 0 ∧
        cstr (s.history.getD ((s.hist_write + 16 - 1) % 16) []) 0 = cstr s.line_buf 0 then
      s
    else
      let entry := s.line_buf.take s.line_pos ++ [0] ++
        (s.history.getD s.hist_write []).drop (s.line_pos + 1)
      { s with
          history := s.history.set s.hist_write entry
          hist_write := (s.hist_write + 1) % 16
          hist_count := if s.hist_count < 16 then s.hist_count + 1 else s.hist_count }

/-- `editor::ReplaceLine(s, new_line)` where `newLine` is the C string
passed in (`strlen` = its length): copy at most 255 bytes into
`line_buf`, NUL-terminate, set `line_pos`.  (The `\b \b` erases and the
re-echo go to the peer and do not change the session.) -/
def replaceLine (s : Session) (newLine : List Nat) : Session :=
  let len := min newLine.length 255
  { s with
      line_buf := newLine.take len ++ [0] ++ s.line_buf.drop (len + 1)
      line_pos := len }

/-- `editor::HistoryUp`: enter browsing on first use, then step to the
previous slot unless the guard `dist_from_write > hist_count` stops it
(the local `oldest` in the C code is computed but never used). -/
def historyUp (s : Session) : Session :=
  if s.hist_count = 0 then s
  else
    let s1 := if ¬s.hist_browsing then
        { s with hist_nav := s.hist_write, hist_browsing := true }
      else s
    let prev := (s1.hist_nav + 16 - 1) % 16
    if prev = s1.hist_nav then s1
    else
      let dist := (s1.hist_write + 16 - prev) % 16
      if dist > s1.hist_count then s1
      else replaceLine { s1 with hist_nav := prev } (cstr (s1.history.getD prev []) 0)

/-- `editor::HistoryDown`: step to the next slot; stepping onto
`hist_write` restores an empty line and leaves browsing. -/
def historyDown (s : Session) : Session :=
  if ¬s.hist_browsing then s
  else
    let next := (s.hist_nav + 1) % 16
    if next = s.hist_write then
      { s with
          hist_browsing := false
          line_pos := 0
          line_buf := bset s.line_buf 0 0 }
    else replaceLine { s with hist_nav := next } (cstr (s.history.getD next []) 0)

/-- `editor::TabComplete`: NUL-terminate the line, run `AutoComplete`
into the 64-byte `completion` buffer, and rewrite the line according to
the match count (terminal output does not change the session). -/
def tabComplete (reg : Registry) (s : Session) : Session :=
  let buf0 := bset s.line_buf s.line_pos 0
  let ac := autoComplete reg (cstr buf0 0) 64
  if ac.1 = 1 then
    let compLen := if ac.2.length ≥ 254 then 253 else ac.2.length
    { s with
        line_buf := ac.2.take compLen ++ [32, 0] ++ buf0.drop (compLen + 2)
        line_pos := compLen + 1 }
  else if ac.1 > 1 then
    let compLen := if ac.2.length ≥ 255 then 254 else ac.2.length
    { s with
        line_buf := ac.2.take compLen ++ [0] ++ buf0.drop (compLen + 1)
        line_pos := compLen }
  else { s with line_buf := buf0 }

/-- Result of `editor::ProcessByte`: the updated session, the returned
`LineReady` flag, and whether the telnet CR handling consumed the peeked
byte from the input stream. -/
structure PBOut where
  s : Session
  ready : Bool
  tookPeek : Bool
deriving DecidableEq, Repr

/-- Keystroke handling of `editor::ProcessByte` after the IAC filter
(`b` is the post-filter byte value 0..255; comparisons with `'\r'`,
`'\n'`, `'['`, `'A'`... hold exactly for the equal byte values since
bytes ≥ 0x80 cast to a negative `char`).  `peek` is the next byte
available on the descriptor for the telnet CR-LF pairing (`MSG_PEEK`). -/
def processKey (reg : Registry) (s : Session) (b : Nat) (peek : Option Nat) : PBOut :=
  match s.esc_state with
  | .kEsc =>
      if b = 91 then ⟨{ s with esc_state := .kBracket }, false, false⟩
      else ⟨{ s with esc_state := .kNone }, false, false⟩
  | .kBracket =>
      let s1 := { s with esc_state := .kNone }
      if b = 65 then ⟨historyUp s1, false, false⟩
      else if b = 66 then ⟨historyDown s1, false, false⟩
      else ⟨s1, false, false⟩
  | .kNone =>
      if b = 27 then ⟨{ s with esc_state := .kEsc }, false, false⟩
      else if b = 3 then
        ⟨{ s with line_pos := 0, line_buf := bset s.line_buf 0 0, hist_browsing := false },
          false, false⟩
      else if b = 4 then
        ⟨if s.line_pos = 0 then { s with active := false } else s, false, false⟩
      else if b = 127 ∨ b = 8 then
        ⟨if s.line_pos > 0 then { s with line_pos := s.line_pos - 1 } else s, false, false⟩
      else if b = 9 then
        ⟨tabComplete reg s, false, false⟩
      else if b = 13 ∨ b = 10 then
        let tp := s.telnet_mode ∧ b = 13 ∧ (peek = some 10 ∨ peek = some 0)
        let s1 := { s with line_buf := bset s.line_buf s.line_pos 0, hist_browsing := false }
        if s1.line_pos > 0 then ⟨pushHistory s1, true, decide tp⟩
        else ⟨s1, false, decide tp⟩
      else if s.line_pos < 255 ∧ 32 ≤ b ∧ b < 127 then
        ⟨{ s with line_buf := bset s.line_buf s.line_pos b, line_pos := s.line_pos + 1 },
          false, false⟩
      else ⟨s, false, false⟩

/-- `editor::ProcessByte(s, byte, prompt)` (prompt output does not
change the session, so the prompt argument is dropped): IAC filtering in
telnet mode, then keystroke handling. -/
def processByte (reg : Registry) (s : Session) (b : Nat) (peek : Option Nat) : PBOut :=
  if s.telnet_mode then
    let f := filterIac s.iac_state b
    let s1 := { s with iac_state := f.1 }
    if f.2 = 0 then ⟨s1, false, false⟩
    else processKey reg s1 f.2 peek
  else processKey reg s b peek

/-- Feed a byte sequence to `ProcessByte` (as the unit tests do); when a
CR consumed the peeked LF/NUL that byte is not delivered again. -/
def runEditor (reg : Registry) (s : Session) : List Nat → Session
  | [] => s
  | b :: rest =>
      let r := processByte reg s b rest.head?
      if r.tookPeek then
        match rest with
        | [] => r.s
        | _ :: rest2 => runEditor reg r.s rest2
      else runEditor reg r.s rest

/-- Result of `editor::ExecuteLine`: final `active` flag, the byte
strings written directly to the session, the registry entry whose
callback was invoked (if any), and the thread-local sink after the call
(given its value `sink0` before). -/
structure ExecOut where
  active : Bool
  out : List (List Nat)
  invoked : Option CmdEntry
  sink : Option Nat
deriving DecidableEq, Repr

/-- `editor::ExecuteLine(s)`.  `cmdOut` abstracts the invoked callback's
writes through the installed sink (the callback cannot touch the session
otherwise).  The unknown-command `snprintf` truncates the message to the
159 bytes that fit the 160-byte buffer. -/
def executeLine (reg : Registry) (cmdOut : CmdEntry → List (List Nat)) (s : Session)
    (sink0 : Option Nat) : ExecOut :=
  let bf := s.line_buf.take (s.line_pos + 1)
  let r := shellSplitBuf bf s.line_pos
  if r.2.1 = 0 then ⟨s.active, [], none, sink0⟩
  else
    let a0 := cstr r.1 (r.2.2.headD 0)
    if a0 = strBytes "exit" ∨ a0 = strBytes "quit" then
      ⟨false, [strBytes "Bye.\r\n"], none, sink0⟩
    else
      match rfind reg a0 with
      | some cmd => ⟨s.active, cmdOut cmd, some cmd, none⟩
      | none =>
          ⟨s.active, [(strBytes "unknown command: " ++ a0 ++ strBytes "\r\n").take 159],
            none, sink0⟩

/-- Phase of `TelnetServer::RunAuth`. -/
inductive AuthPhase
  | kUser
  | kPass
deriving DecidableEq, Repr

/-- State of the `RunAuth` loop: the phase, the C strings accumulated in
`user_buf` / `pass_buf` (each capped at 63 bytes; the NUL written on
Enter makes the C string exactly the accumulated bytes), the session's
`auth_attempts`, `authenticated`, IAC filter state and telnet flag. -/
structure AuthState where
  phase : AuthPhase
  userBuf : List Nat
  passBuf : List Nat
  attempts : Nat
  authenticated : Bool
  iac : IacState
  telnet : Bool
deriving DecidableEq, Repr

/-- `RunAuth` state at entry (the accepting task initialises the session
with `auth_attempts = 0`, `authenticated = false`, IAC state NORMAL). -/
def authInit (telnet : Bool) : AuthState :=
  ⟨.kUser, [], [], 0, false, .kNormal, telnet⟩

/-- One-byte step of `RunAuth`: updated state, bytes written to the
peer, the username/password pairs compared against the credentials (one
at most), whether the function returned (successful login), and whether
the CR handling consumed the peeked byte. -/
structure AuthStep where
  st : AuthState
  out : List (List Nat)
  pairs : List (List Nat × List Nat)
  stop : Bool
  tookPeek : Bool
deriving DecidableEq, Repr

/-- Loop body of `TelnetServer::RunAuth` for one byte read, with the
configured credentials `cu` / `cp` (NUL-free byte strings). -/
def authStepByte (cu cp : List Nat) (st : AuthState) (b : Nat) (peek : Option Nat) :
    AuthStep :=
  let f := if st.telnet then filterIac st.iac b else (st.iac, b)
  let st1 := { st with iac := f.1 }
  if st1.telnet ∧ f.2 = 0 then ⟨st1, [], [], false, false⟩
  else
    let b := f.2
    if b = 127 ∨ b = 8 then
      match st1.phase with
      | .kUser =>
          if st1.userBuf ≠ [] then
            ⟨{ st1 with userBuf := st1.userBuf.dropLast }, [strBytes "\x08 \x08"], [], false, false⟩
          else ⟨st1, [], [], false, false⟩
      | .kPass =>
          if st1.passBuf ≠ [] then
            ⟨{ st1 with passBuf := st1.passBuf.dropLast }, [strBytes "\x08 \x08"], [], false, false⟩
          else ⟨st1, [], [], false, false⟩
    else if b = 13 ∨ b = 10 then
      let tp := st1.telnet ∧ b = 13 ∧ (peek = some 10 ∨ peek = some 0)
      match st1.phase with
      | .kUser =>
          ⟨{ st1 with phase := .kPass, passBuf := [] },
            [strBytes "\r\n", strBytes "Password: "], [], false, decide tp⟩
      | .kPass =>
          if st1.userBuf = cu ∧ st1.passBuf = cp then
            ⟨{ st1 with authenticated := true },
              [strBytes "\r\n", strBytes "Login successful.\r\n"],
              [(st1.userBuf, st1.passBuf)], true, decide tp⟩
          else
            if st1.attempts + 1 < 3 then
              ⟨{ st1 with attempts := st1.attempts + 1, phase := .kUser, userBuf := [] },
                [strBytes "\r\n", strBytes "Invalid credentials. Try again.\r\n",
                  strBytes "Username: "],
                [(st1.userBuf, st1.passBuf)], false, decide tp⟩
            else
              ⟨{ st1 with attempts := st1.attempts + 1 },
                [strBytes "\r\n"], [(st1.userBuf, st1.passBuf)], false, decide tp⟩
    else if 32 ≤ b ∧ b < 127 then
      match st1.phase with
      | .kUser =>
          if st1.userBuf.length < 63 then
            ⟨{ st1 with userBuf := st1.userBuf ++ [b] }, [[b]], [], false, false⟩
          else ⟨st1, [], [], false, false⟩
      | .kPass =>
          if st1.passBuf.length < 63 then
            ⟨{ st1 with passBuf := st1.passBuf ++ [b] }, [strBytes "*"], [], false, false⟩
          else ⟨st1, [], [], false, false⟩
    else ⟨st1, [], [], false, false⟩

/-- The `RunAuth` read loop over the available input bytes (`poll` /
`read` deliver them in order; when the input is exhausted or the guard
`auth_attempts < 3` fails the loop blocks or exits, leaving the state as
is).  Returns the final state, the writes, and all compared pairs. -/
def runAuth (cu cp : List Nat) (st : AuthState) :
    List Nat → AuthState × List (List Nat) × List (List Nat × List Nat)
  | [] => (st, [], [])
  | b :: rest =>
      if st.attempts < 3 then
        let r := authStepByte cu cp st b rest.head?
        if r.stop then (r.st, r.out, r.pairs)
        else
          if r.tookPeek then
            match rest with
            | [] => (r.st, r.out, r.pairs)
            | _ :: rest2 =>
                let w := runAuth cu cp r.st rest2
                (w.1, r.out ++ w.2.1, r.pairs ++ w.2.2)
          else
            let w := runAuth cu cp r.st rest
            (w.1, r.out ++ w.2.1, r.pairs ++ w.2.2)
      else (st, [], [])

/-- Editor sanity invariant: the line buffer is the 256-byte array and
the cursor stays strictly inside it. -/
def editorInv (s : Session) : Prop :=
  s.line_buf.length = 256 ∧ s.line_pos < 256

/-- Backward distance of `hist_nav` from `hist_write` in the 16-slot
ring (0 = at the write slot, k = k slots back; the newest entry is at
distance 1, the oldest valid entry at distance `hist_count`). -/
def distFromWrite (s : Session) : Nat :=
  (s.hist_write + 16 - s.hist_nav) % 16

/-- History-navigation soundness: while browsing, `hist_nav` sits on a
valid entry, between the newest (distance 1) and the oldest (distance
`hist_count`) — the property the history-up claim asserts. -/
def histNavOk (s : Session) : Prop :=
  s.hist_browsing = true → 1 ≤ distFromWrite s ∧ distFromWrite s ≤ s.hist_count

/-- A session whose history ring is exactly full (`hist_count = 16`,
oldest entry in slot `hist_write = 0`), with 16 distinct entries. -/
def histFullSession : Session :=
  { sessionInit with
      hist_count := 16
      hist_write := 0
      history := (List.range 16).map (fun k => (65 + k) :: List.replicate 255 0) }

/-- A session with 15 valid history entries (`hist_write = 0`, so the
slots holding entries are 1..15 and slot 0 is not a valid entry). -/
def histNearFullSession : Session :=
  { sessionInit with
      hist_count := 15
      hist_write := 0
      history := (List.range 16).map (fun k => (65 + k) :: List.replicate 255 0) }

end Embsh

namespace Embsh

/-! ### Buffer access lemmas -/

theorem bget_bset_self (bf : List Nat) (k v : Nat) (h : k < bf.length) :
    bget (bset bf k v) k = v := by
  simp [bget, bset, List.getD_eq_getElem?_getD, List.getElem?_set_eq_of_lt, h]

theorem bget_bset_ne {bf : List Nat} {k j v : Nat} (h : k ≠ j) :
    bget (bset bf k v) j = bget bf j := by
  simp [bget, bset, List.getD_eq_getElem?_getD, List.getElem?_set_ne h]

/-! ### Claim C1 -/

/-- Claim C1 (evidence of the code bug): on the line `echo "a\"b"` the
code's `ShellSplit` produces the three tokens `echo`, `a`, `b""`.
The backslash is shifted out as specified, but the loop then
re-inspects the shifted-in byte without advancing `i`, so an escaped
double quote closes the quoted token instead of becoming part of it —
the spec promises the two tokens `echo`, `a"b`. -/
theorem shellSplit_escaped_quote_eval :
    shellSplit [101, 99, 104, 111, 32, 34, 97, 92, 34, 98, 34] =
      (3, [[101, 99, 104, 111], [97], [98, 34, 34]]) := by
  decide

/-! ### Claim C4 -/

set_option maxRecDepth 4096 in
/-- Claim C4: `FilterIac` implements exactly the specified 4-state
telnet IAC automaton: NORMAL passes every byte except `0xFF` through
unchanged and moves to IAC on `0xFF` (consumed); IAC consumes
`0xFB..0xFE` into NEGO, consumes `0xFA` into SUB, emits a literal
`0xFF` back in NORMAL on `0xFF`, and consumes any other byte back to
NORMAL; NEGO consumes any byte to NORMAL; SUB re-enters IAC on `0xFF`
and stays in SUB on anything else, all consumed. -/
theorem filterIac_automaton :
    ∀ b : Fin 256,
      (filterIac .kNormal b.val =
        if b.val = 255 then (.kIac, 0) else (.kNormal, b.val)) ∧
      (filterIac .kIac b.val =
        if 251 ≤ b.val ∧ b.val ≤ 254 then (.kNego, 0)
        else if b.val = 250 then (.kSub, 0)
        else if b.val = 255 then (.kNormal, 255)
        else (.kNormal, 0)) ∧
      (filterIac .kNego b.val = (.kNormal, 0)) ∧
      (filterIac .kSub b.val =
        if b.val = 255 then (.kIac, 0) else (.kSub, 0)) := by
  decide

/-! ### Claim C5 -/

/-- Claim C5: `Register` fails with `DuplicateName` exactly when an
entry with the name exists, fails with `RegistryFull` at 64 entries
when the name is fresh, leaves the registry unchanged on any failure,
and on success `Find` returns exactly the entry just stored and the
count grows by one. -/
theorem register_find_spec (r : Registry) (name : List Nat) (fn ctx : Nat)
    (desc : List Nat) :
    ((rregister r name fn ctx desc).2 = some .kDuplicateName ↔
      ∃ c ∈ r.cmds, c.name = name) ∧
    ((¬∃ c ∈ r.cmds, c.name = name) → 64 ≤ r.cmds.length →
      (rregister r name fn ctx desc).2 = some .kRegistryFull) ∧
    ((rregister r name fn ctx desc).2 ≠ none →
      (rregister r name fn ctx desc).1 = r) ∧
    ((rregister r name fn ctx desc).2 = none →
      rfind (rregister r name fn ctx desc).1 name = some ⟨name, desc, fn, ctx⟩ ∧
      (rregister r name fn ctx desc).1.cmds.length = r.cmds.length + 1) := by
  by_cases hdup : r.cmds.any (fun c => c.name == name)
  · have hex : ∃ c ∈ r.cmds, c.name = name := by
      simpa using List.any_eq_true.mp hdup
    simp [rregister, hdup, hex]
  · have hex : ¬∃ c ∈ r.cmds, c.name = name := by
      rintro ⟨c, hc, he⟩
      exact hdup (List.any_eq_true.mpr ⟨c, hc, by simpa using he⟩)
    by_cases hfull : 64 ≤ r.cmds.length
    · simp [rregister, hdup, hfull, hex]
    · have hfind : r.cmds.find? (fun c => c.name == name) = none := by
        refine List.find?_eq_none.mpr (fun x hx hbe => ?_)
        exact hex ⟨x, hx, by simpa using hbe⟩
      simp [rregister, hdup, hfull, hex, rfind, List.find?_append, hfind, List.find?]

/-- Witness for `register_find_spec` at a concrete registration. -/
theorem register_find_spec_witness :
    rfind (rregister ⟨[]⟩ [104, 105] 1 2 [100]).1 [104, 105] =
        some ⟨[104, 105], [100], 1, 2⟩ ∧
      (rregister ⟨[]⟩ [104, 105] 1 2 [100]).1.cmds.length = 1 := by
  have h := (register_find_spec ⟨[]⟩ [104, 105] 1 2 [100]).2.2.2 (by decide)
  exact ⟨h.1, h.2⟩

/-! ### Claim C6 -/

/-- Claim C6 (counterexample): with a sink installed and an empty
formatted result, `ShellPrintf` forwards no write call at all (the
`n > 0` guard skips the write), refuting "forwards exactly one write
call ... including when the formatted result is empty". -/
theorem shellPrintf_empty_no_write :
    shellPrintf (some 0) [] = (0, []) := by
  decide

/-- Claim C6 (amended): with no sink installed the status is negative
and nothing is written; with a sink and a non-empty formatted result
exactly one write of the first at-most-511 bytes is forwarded (the
512-byte buffer keeps its NUL at position 511) and the untruncated
length is returned; an empty formatted result forwards no write. -/
theorem shellPrintf_sink_spec (sink : Option Nat) (fm : List Nat) :
    (sink = none → shellPrintf sink fm = (-1, [])) ∧
    (sink ≠ none → fm ≠ [] →
      (shellPrintf sink fm).2 = [fm.take 511] ∧ (fm.take 511).length ≤ 511 ∧
      (shellPrintf sink fm).1 = (fm.length : Int)) ∧
    (sink ≠ none → fm = [] → (shellPrintf sink fm).2 = []) := by
  refine ⟨fun h => by subst h; rfl, fun hs hfm => ?_, fun hs hfm => ?_⟩
  · cases sink with
    | none => exact absurd rfl hs
    | some c =>
        have hl : 0 < fm.length := List.length_pos.mpr hfm
        refine ⟨by simp [shellPrintf, hl], ?_, by simp [shellPrintf, hl]⟩
        simp [List.length_take]
  · cases sink with
    | none => exact absurd rfl hs
    | some c => subst hfm; simp [shellPrintf]

/-- Witness for `shellPrintf_sink_spec`. -/
theorem shellPrintf_sink_spec_witness :
    shellPrintf none [97] = (-1, []) ∧ (shellPrintf (some 0) [97]).2 = [[97].take 511] := by
  exact ⟨(shellPrintf_sink_spec none [97]).1 rfl,
    ((shellPrintf_sink_spec (some 0) [97]).2.1 (by decide) (by decide)).1⟩

end Embsh

namespace Embsh

theorem bget_take {bf : List Nat} {k m : Nat} (h : k < m) :
    bget (bf.take m) k = bget bf k := by
  simp [bget, List.getD_eq_getElem?_getD, List.getElem?_take, h]

/-- On all-whitespace input the leading-whitespace loop runs to the end
of the buffer. -/
theorem skipWsF_allWs (fuel : Nat) : ∀ bf i len, len - i < fuel →
    (∀ k, i ≤ k → k < len → isWs (bget bf k)) →
    len ≤ (skipWsF fuel bf i len).2 := by
  induction fuel with
  | zero => intro bf i len h _; omega
  | succ fuel ih =>
      intro bf i len hf hws
      rw [skipWsF]
      by_cases hi : i < len
      · have hw : isWs (bget bf i) := hws i le_rfl hi
        rw [if_pos (by simp [hi, hw])]
        refine ih _ _ _ (by omega) (fun k hk1 hk2 => ?_)
        rw [bget_bset_ne (by omega)]
        exact hws k (by omega) hk2
      · rw [if_neg (by simp [hi])]
        omega

/-- The outer `ShellSplit` loop finds no argument in an all-whitespace
region. -/
theorem splitLoopF_allWs (fuel : Nat) (bf : List Nat) (i len argc : Nat)
    (starts : List Nat) (hf : len - i < fuel)
    (hws : ∀ k, i ≤ k → k < len → isWs (bget bf k)) :
    (splitLoopF fuel bf i len argc starts).2.1 = argc ∧
      (splitLoopF fuel bf i len argc starts).2.2 = starts := by
  cases fuel with
  | zero => omega
  | succ fuel =>
      rw [splitLoopF]
      by_cases hi : i < len ∧ argc < 32
      · rw [if_pos (by simp [hi.1, hi.2])]
        have hge : len ≤ (skipWs bf i len).2 :=
          skipWsF_allWs (len + 1) bf i len (by omega) hws
        rw [if_neg (by omega)]
        exact ⟨rfl, rfl⟩
      · rw [if_neg (by simp only [Bool.and_eq_true, decide_eq_true_eq]; exact hi)]
        exact ⟨rfl, rfl⟩

/-! ### Claim C10 -/

/-- Claim C10: on a non-empty line consisting only of spaces and tabs,
`ExecuteLine` is a no-op at the session interface: the tokenizer returns
`argc = 0`, so nothing is written, no registered command or built-in is
invoked, `active` is untouched and the thread-local sink is exactly what
it was before the call. -/
theorem executeLine_ws_noop (reg : Registry) (cmdOut : CmdEntry → List (List Nat))
    (s : Session) (sink0 : Option Nat) (hpos : 0 < s.line_pos)
    (hws : ∀ k, k < s.line_pos → bget s.line_buf k = 32 ∨ bget s.line_buf k = 9) :
    executeLine reg cmdOut s sink0 = ⟨s.active, [], none, sink0⟩ := by
  have hws' : ∀ k, 0 ≤ k → k < s.line_pos →
      isWs (bget (s.line_buf.take (s.line_pos + 1)) k) := by
    intro k _ hk
    rw [bget_take (by omega)]
    rcases hws k hk with h | h <;> simp [isWs, h]
  have h0 := splitLoopF_allWs (s.line_pos + 1) (s.line_buf.take (s.line_pos + 1))
    0 s.line_pos 0 [] (by omega) hws'
  simp only [executeLine, shellSplitBuf, h0.1]
  rfl

/-- Witness for `executeLine_ws_noop`: the line `" \t "`. -/
theorem executeLine_ws_noop_witness :
    executeLine ⟨[]⟩ (fun _ => [])
        { sessionInit with
            line_buf := [32, 9, 32] ++ List.replicate 253 0
            line_pos := 3 } none =
      ⟨true, [], none, none⟩ :=
  executeLine_ws_noop _ _ _ _ (by decide) (by decide)

end Embsh

namespace Embsh

/-! ### Editor invariant preservation -/

theorem editorInv_of {s : Session} (h1 : s.line_buf.length = 256)
    (h2 : s.line_pos < 256) : editorInv s := ⟨h1, h2⟩

theorem replaceLine_inv {s : Session} (h : editorInv s) (nl : List Nat) :
    editorInv (replaceLine s nl) := by
  obtain ⟨hl, hp⟩ := h
  unfold replaceLine
  refine editorInv_of ?_ ?_
  all_goals dsimp only
  all_goals simp [hl]
  all_goals omega

theorem pushHistory_line (s : Session) :
    (pushHistory s).line_buf = s.line_buf ∧ (pushHistory s).line_pos = s.line_pos := by
  unfold pushHistory
  split_ifs <;> exact ⟨rfl, rfl⟩

theorem pushHistory_inv {s : Session} (h : editorInv s) : editorInv (pushHistory s) := by
  obtain ⟨hl, hp⟩ := h
  refine editorInv_of ?_ ?_
  · rw [(pushHistory_line s).1]; exact hl
  · rw [(pushHistory_line s).2]; exact hp

theorem historyUp_inv {s : Session} (h : editorInv s) : editorInv (historyUp s) := by
  unfold historyUp
  dsimp only
  split_ifs <;> first
    | exact h
    | exact replaceLine_inv h _

theorem historyDown_inv {s : Session} (h : editorInv s) : editorInv (historyDown s) := by
  obtain ⟨hl, hp⟩ := h
  unfold historyDown
  dsimp only
  split_ifs <;> first
    | exact replaceLine_inv ⟨hl, hp⟩ _
    | exact ⟨hl, hp⟩
    | exact editorInv_of
        (by try dsimp only
            simp [bset, hl])
        (by try dsimp only
            omega)

theorem tabComplete_inv {s : Session} (reg : Registry) (h : editorInv s) :
    editorInv (tabComplete reg s) := by
  obtain ⟨hl, hp⟩ := h
  have hb0 : (bset s.line_buf s.line_pos 0).length = 256 := by simp [bset, hl]
  unfold tabComplete
  dsimp only
  split_ifs <;>
    refine editorInv_of ?_ ?_ <;>
      dsimp only <;>
      (try simp only [List.length_append, List.length_take, List.length_drop,
        List.length_cons, List.length_nil, hb0]) <;>
      omega

theorem processKey_inv {s : Session} (reg : Registry) (b : Nat) (pk : Option Nat)
    (h : editorInv s) : editorInv (processKey reg s b pk).s := by
  obtain ⟨hl, hp⟩ := h
  unfold processKey
  split
  · split_ifs <;> exact ⟨hl, hp⟩
  · dsimp only
    split_ifs
    · exact historyUp_inv ⟨hl, hp⟩
    · exact historyDown_inv ⟨hl, hp⟩
    · exact ⟨hl, hp⟩
  · dsimp only
    split_ifs <;> (try dsimp only) <;> first
      | exact ⟨hl, hp⟩
      | exact tabComplete_inv reg ⟨hl, hp⟩
      | exact pushHistory_inv (editorInv_of (by simp [bset, hl]) hp)
      | exact editorInv_of
          (by try dsimp only
              simp [bset, hl])
          (by try dsimp only
              omega)

theorem processByte_inv {s : Session} (reg : Registry) (b : Nat) (pk : Option Nat)
    (h : editorInv s) : editorInv (processByte reg s b pk).s := by
  unfold processByte
  dsimp only
  split_ifs <;> first
    | exact h
    | exact processKey_inv _ _ _ h

end Embsh

namespace Embsh

theorem processKey_ready_nul {s : Session} (reg : Registry) (b : Nat) (pk : Option Nat)
    (h : editorInv s) (hr : (processKey reg s b pk).ready = true) :
    bget (processKey reg s b pk).s.line_buf (processKey reg s b pk).s.line_pos = 0 := by
  obtain ⟨hl, hp⟩ := h
  revert hr
  unfold processKey
  split
  · split_ifs <;> intro hr <;> simp at hr
  · dsimp only
    split_ifs <;> intro hr <;> simp at hr
  · dsimp only
    split_ifs <;> intro hr <;> first
      | (try dsimp only
         rw [(pushHistory_line _).1, (pushHistory_line _).2]
         exact bget_bset_self s.line_buf s.line_pos 0 (by rw [hl]; exact hp))
      | simp at hr

theorem processByte_ready_nul {s : Session} (reg : Registry) (b : Nat) (pk : Option Nat)
    (h : editorInv s) (hr : (processByte reg s b pk).ready = true) :
    bget (processByte reg s b pk).s.line_buf (processByte reg s b pk).s.line_pos = 0 := by
  revert hr
  unfold processByte
  dsimp only
  split_ifs
  · intro hr; simp at hr
  · exact fun hr => processKey_ready_nul reg _ pk h hr
  · exact fun hr => processKey_ready_nul reg b pk h hr

theorem runEditor_inv_aux (reg : Registry) :
    ∀ (n : Nat) (input : List Nat), input.length ≤ n →
      ∀ s : Session, editorInv s → editorInv (runEditor reg s input) := by
  intro n
  induction n with
  | zero =>
      intro input hlen s hs
      cases input with
      | nil => exact hs
      | cons b rest => simp at hlen
  | succ n ih =>
      intro input hlen s hs
      cases input with
      | nil => exact hs
      | cons b rest =>
          rw [runEditor.eq_def]
          dsimp only
          have hbs := processByte_inv reg b rest.head? hs
          by_cases htp : (processByte reg s b rest.head?).tookPeek = true
          · rw [if_pos htp]
            cases rest with
            | nil => exact hbs
            | cons c rest2 =>
                exact ih rest2 (by simp at hlen ⊢; omega) _ hbs
          · rw [if_neg htp]
            exact ih rest (by simp at hlen; omega) _ hbs

/-! ### Claim C2 -/

/-- Claim C2 (counterexample): feed `a`, `b`, backspace from the fresh
session.  The backspace step mutates the line state (`line_pos` drops
from 2 to 1) but leaves the deleted byte in place, so immediately after
this `ProcessByte` call `line_buf[line_pos] = 'b' ≠ 0` — the claimed
invariant `line_buf[line_pos] == 0` fails after a backspace. -/
theorem processByte_backspace_stale :
    (runEditor ⟨[]⟩ sessionInit [97, 98, 8]).line_pos = 1 ∧
      bget (runEditor ⟨[]⟩ sessionInit [97, 98, 8]).line_buf 1 = 98 := by
  constructor <;> decide

/-- Claim C2 (amended): for every byte sequence fed to the editor,
`0 ≤ line_pos < LINE_CAP` holds after every step (and the buffer stays
the 256-byte array); the NUL-at-cursor property `line_buf[line_pos] == 0`
holds whenever `ProcessByte` commits a line (returns true) — the editor
writes the NUL at commit and before every read of the buffer — but it
does not hold after every mutating step (backspace and appends can
leave a stale byte at `line_pos`). -/
theorem processByte_session_inv (reg : Registry) :
    (∀ input : List Nat, editorInv (runEditor reg sessionInit input)) ∧
    (∀ (s : Session) (b : Nat) (pk : Option Nat), editorInv s →
      (processByte reg s b pk).ready = true →
      bget (processByte reg s b pk).s.line_buf (processByte reg s b pk).s.line_pos = 0) := by
  constructor
  · intro input
    exact runEditor_inv_aux reg input.length input le_rfl sessionInit
      ⟨by decide, by decide⟩
  · intro s b pk hs hr
    exact processByte_ready_nul reg b pk hs hr

/-- Witness for `processByte_session_inv`: the invariant after the
counterexample's byte sequence, and the commit-NUL property on the
session holding the line `a` when Enter arrives. -/
theorem processByte_session_inv_witness :
    editorInv (runEditor ⟨[]⟩ sessionInit [97, 98, 8]) ∧
      bget (processByte ⟨[]⟩ (runEditor ⟨[]⟩ sessionInit [97]) 13 none).s.line_buf
        (processByte ⟨[]⟩ (runEditor ⟨[]⟩ sessionInit [97]) 13 none).s.line_pos = 0 := by
  refine ⟨(processByte_session_inv ⟨[]⟩).1 [97, 98, 8], ?_⟩
  exact (processByte_session_inv ⟨[]⟩).2 _ 13 none
    ((processByte_session_inv ⟨[]⟩).1 [97]) (by decide)

end Embsh

namespace Embsh

/-! ### C-string lemmas for the history ring -/

theorem getD_set_self {α : Type} (l : List α) (i : Nat) (a d : α) (h : i < l.length) :
    (l.set i a).getD i d = a := by
  rw [List.getD_eq_getElem?_getD, List.getElem?_set_eq_of_lt a h]
  rfl

theorem takeWhile_append_stop (p : Nat → Bool) (hp : p 0 = false) (xs ys : List Nat) :
    (xs ++ 0 :: ys).takeWhile p = xs.takeWhile p := by
  induction xs with
  | nil => simp [List.takeWhile_cons, hp]
  | cons x xs ih =>
      simp only [List.cons_append, List.takeWhile_cons]
      cases hpx : p x
      · simp
      · simp [ih]

theorem cstr_eq_take {bf : List Nat} {pos : Nat} (hlen : pos < bf.length)
    (h : bget bf pos = 0) :
    cstr bf 0 = (bf.take pos).takeWhile (fun b => b ≠ 0) := by
  have hx : bf[pos] = 0 := by
    rw [bget, List.getD_eq_getElem?_getD, List.getElem?_eq_getElem hlen] at h
    simpa using h
  have hbf : bf = bf.take pos ++ 0 :: bf.drop (pos + 1) := by
    conv_lhs => rw [← List.take_append_drop pos bf]
    rw [List.drop_eq_getElem_cons hlen, hx]
  rw [cstr, List.drop_zero]
  conv_lhs => rw [hbf]
  exact takeWhile_append_stop _ rfl _ _

/-- `PushHistory` on a line equal to the previous entry is a no-op. -/
theorem pushHistory_skip {s : Session} (hne : ¬s.line_pos = 0)
    (hdup : s.hist_count > 0 ∧
      cstr (s.history.getD ((s.hist_write + 16 - 1) % 16) []) 0 = cstr s.line_buf 0) :
    pushHistory s = s := by
  unfold pushHistory
  rw [if_neg hne, if_pos hdup]

/-- `PushHistory` on a fresh line stores it and advances the ring. -/
theorem pushHistory_ins {s : Session} (hne : ¬s.line_pos = 0)
    (hdup : ¬(s.hist_count > 0 ∧
      cstr (s.history.getD ((s.hist_write + 16 - 1) % 16) []) 0 = cstr s.line_buf 0)) :
    pushHistory s =
      { s with
          history := s.history.set s.hist_write
            (s.line_buf.take s.line_pos ++ [0] ++
              (s.history.getD s.hist_write []).drop (s.line_pos + 1))
          hist_write := (s.hist_write + 1) % 16
          hist_count := if s.hist_count < 16 then s.hist_count + 1 else s.hist_count } := by
  unfold pushHistory
  rw [if_neg hne, if_neg hdup]

/-! ### Claim C8 -/

/-- Claim C8: for any session whose line buffer holds a non-empty
NUL-terminated line (with the sanity bounds the editor maintains),
pushing the line into the history twice in a row leaves `hist_count`,
`hist_write` and the stored entries unchanged after the second push
(the consecutive-duplicate check fires), while pushing a line that
differs from the immediately previous entry bumps `hist_count`
(saturating at 16) and advances `hist_write` modulo 16. -/
theorem pushHistory_dedup (s : Session)
    (hlb : s.line_buf.length = 256) (hpos : s.line_pos < 256)
    (hne : ¬s.line_pos = 0) (hnul : bget s.line_buf s.line_pos = 0)
    (hhl : s.history.length = 16) (hw : s.hist_write < 16)
    (hcnt : s.hist_count ≤ 16) :
    ((pushHistory (pushHistory s)).hist_count = (pushHistory s).hist_count ∧
     (pushHistory (pushHistory s)).hist_write = (pushHistory s).hist_write ∧
     (pushHistory (pushHistory s)).history = (pushHistory s).history) ∧
    ((s.hist_count > 0 →
        cstr (s.history.getD ((s.hist_write + 16 - 1) % 16) []) 0 ≠ cstr s.line_buf 0) →
      (pushHistory s).hist_count = min (s.hist_count + 1) 16 ∧
      (pushHistory s).hist_write = (s.hist_write + 1) % 16) := by
  by_cases hdup : s.hist_count > 0 ∧
      cstr (s.history.getD ((s.hist_write + 16 - 1) % 16) []) 0 = cstr s.line_buf 0
  · have hfull : pushHistory s = s := pushHistory_skip hne hdup
    refine ⟨⟨?_, ?_, ?_⟩, fun hd => absurd hdup.2 (hd hdup.1)⟩ <;> simp only [hfull]
  · have hcs : cstr (s.line_buf.take s.line_pos ++ [0] ++
        (s.history.getD s.hist_write []).drop (s.line_pos + 1)) 0 =
        cstr s.line_buf 0 := by
      have h1 : cstr (s.line_buf.take s.line_pos ++ [0] ++
          (s.history.getD s.hist_write []).drop (s.line_pos + 1)) 0 =
          (s.line_buf.take s.line_pos).takeWhile (fun b => b ≠ 0) := by
        rw [cstr, List.drop_zero, List.append_assoc, List.singleton_append]
        exact takeWhile_append_stop _ rfl _ _
      rw [h1, cstr_eq_take (show s.line_pos < s.line_buf.length by omega) hnul]
    have hfull : pushHistory (pushHistory s) = pushHistory s := by
      rw [pushHistory_ins hne hdup]
      apply pushHistory_skip
      · exact hne
      · refine ⟨?_, ?_⟩
        · dsimp only
          split_ifs <;> omega
        · dsimp only
          rw [show ((s.hist_write + 1) % 16 + 16 - 1) % 16 = s.hist_write from by omega]
          rw [getD_set_self _ _ _ _ (by rw [hhl]; exact hw)]
          exact hcs
    refine ⟨⟨by rw [hfull], by rw [hfull], by rw [hfull]⟩, fun _ => ?_⟩
    rw [pushHistory_ins hne hdup]
    refine ⟨?_, rfl⟩
    dsimp only
    split_ifs <;> omega

/-- Witness for `pushHistory_dedup`: the line `a` pushed into a fresh
session's history. -/
theorem pushHistory_dedup_witness :
    ((pushHistory (pushHistory
        { sessionInit with line_buf := 97 :: List.replicate 255 0, line_pos := 1 })).hist_count =
      (pushHistory
        { sessionInit with line_buf := 97 :: List.replicate 255 0, line_pos := 1 }).hist_count) ∧
    (pushHistory
        { sessionInit with line_buf := 97 :: List.replicate 255 0, line_pos := 1 }).hist_count =
      min (0 + 1) 16 := by
  have h := pushHistory_dedup
    { sessionInit with line_buf := 97 :: List.replicate 255 0, line_pos := 1 }
    (by decide) (by decide) (by decide) (by decide) (by decide) (by decide) (by decide)
  exact ⟨h.1.1, (h.2 (fun hc => absurd hc (by decide))).1⟩

end Embsh

namespace Embsh

theorem replaceLine_nav (s : Session) (nl : List Nat) :
    (replaceLine s nl).hist_nav = s.hist_nav := rfl

theorem replaceLine_write (s : Session) (nl : List Nat) :
    (replaceLine s nl).hist_write = s.hist_write := rfl

theorem replaceLine_count (s : Session) (nl : List Nat) :
    (replaceLine s nl).hist_count = s.hist_count := rfl

theorem replaceLine_browsing (s : Session) (nl : List Nat) :
    (replaceLine s nl).hist_browsing = s.hist_browsing := rfl

/-- One `HistoryUp` step preserves navigation soundness while
`hist_count ≤ 14`: the `dist_from_write > hist_count` guard then fires
exactly at the oldest entry. -/
theorem historyUp_step (t : Session) (hc : t.hist_count ≤ 14) (hw : t.hist_write < 16)
    (hn : t.hist_nav < 16) (hok : histNavOk t) :
    histNavOk (historyUp t) ∧ (historyUp t).hist_nav < 16 ∧
      (historyUp t).hist_write = t.hist_write ∧
      (historyUp t).hist_count = t.hist_count := by
  unfold histNavOk distFromWrite at hok ⊢
  unfold historyUp
  dsimp only
  by_cases h0 : t.hist_count = 0
  · rw [if_pos h0]
    exact ⟨hok, hn, rfl, rfl⟩
  · rw [if_neg h0]
    by_cases hb : t.hist_browsing = true
    · rw [if_neg (not_not_intro hb)]
      obtain ⟨hd1, hd2⟩ := hok hb
      split_ifs with h1 h2
      · exact absurd h1 (by omega)
      · exact ⟨hok, hn, rfl, rfl⟩
      · refine ⟨?_, ?_, ?_, ?_⟩
        · rw [replaceLine_browsing, replaceLine_write, replaceLine_nav,
            replaceLine_count]
          dsimp only
          intro _
          constructor <;> omega
        · rw [replaceLine_nav]
          dsimp only
          omega
        · rw [replaceLine_write]
        · rw [replaceLine_count]
    · rw [if_pos hb]
      dsimp only
      split_ifs with h1 h2
      · exact absurd h1 (by omega)
      · exfalso; omega
      · refine ⟨?_, ?_, ?_, ?_⟩
        · rw [replaceLine_browsing, replaceLine_write, replaceLine_nav,
            replaceLine_count]
          dsimp only
          intro _
          constructor <;> omega
        · rw [replaceLine_nav]
          dsimp only
          omega
        · rw [replaceLine_write]
        · rw [replaceLine_count]

/-! ### Claim C3 -/

/-- Claim C3 (counterexample): the `dist_from_write > hist_count` guard
can never fire when the ring is full or one short of full, because
`dist_from_write` is reduced modulo 16 and so never exceeds 15.  On the
full ring (`hist_count = 16`, oldest entry in slot `hist_write = 0`),
16 history-up steps reach the oldest entry (slot 0 = `hist_write`) and
the 17th wraps past it back to the newest entry (slot 15, the same slot
the 1st step selects).  With `hist_count = 15`, the 16th step parks
`hist_nav` on slot `hist_write` itself — a slot that holds no valid
entry, at backward distance 16 > 15 from `hist_write`. -/
theorem historyUp_full_ring_wraps :
    (historyUp^[16] histFullSession).hist_nav = histFullSession.hist_write ∧
      (historyUp^[17] histFullSession).hist_nav =
        (historyUp^[1] histFullSession).hist_nav ∧
      (historyUp^[16] histNearFullSession).hist_nav = histNearFullSession.hist_write ∧
      distFromWrite (historyUp^[16] histNearFullSession) = 0 := by
  refine ⟨by decide, by decide, by decide, by decide⟩

/-- Claim C3 (amended): as long as `hist_count ≤ HIST_CAP − 2 = 14`, no
sequence of `HistoryUp` calls moves `hist_nav` to a slot whose backward
distance from `hist_write` exceeds `hist_count` (browsing always sits
between distance 1, the newest entry, and distance `hist_count`, the
oldest), and `hist_write` / `hist_count` are untouched.  For
`hist_count ∈ {15, 16}` the boundary guard never fires and navigation
wraps (see the counterexample). -/
theorem historyUp_no_wrap (s : Session) (hc : s.hist_count ≤ 14)
    (hw : s.hist_write < 16) (hn : s.hist_nav < 16) (hok : histNavOk s) (n : Nat) :
    histNavOk (historyUp^[n] s) ∧ (historyUp^[n] s).hist_nav < 16 ∧
      (historyUp^[n] s).hist_write = s.hist_write ∧
      (historyUp^[n] s).hist_count = s.hist_count := by
  induction n with
  | zero => exact ⟨hok, hn, rfl, rfl⟩
  | succ n ih =>
      obtain ⟨ih1, ih2, ih3, ih4⟩ := ih
      rw [Function.iterate_succ_apply']
      have hstep := historyUp_step (historyUp^[n] s) (by omega) (by omega) ih2 ih1
      exact ⟨hstep.1, hstep.2.1, by rw [hstep.2.2.1, ih3], by rw [hstep.2.2.2, ih4]⟩

/-- Witness for `historyUp_no_wrap`: five history-up steps on a session
with two entries. -/
theorem historyUp_no_wrap_witness :
    histNavOk (historyUp^[5] { sessionInit with hist_count := 2, hist_write := 2 }) ∧
      (historyUp^[5] { sessionInit with hist_count := 2, hist_write := 2 }).hist_write =
        2 := by
  have h := historyUp_no_wrap { sessionInit with hist_count := 2, hist_write := 2 }
    (by decide) (by decide) (by decide) (fun hb => absurd hb (by decide)) 5
  exact ⟨h.1, h.2.2.1⟩

end Embsh

namespace Embsh

/-! ### ShellSplit / token-count correspondence -/

theorem tokCountF_irrel : ∀ (f1 f2 : Nat) (bf : List Nat) (i len : Nat) (b : Bool),
    len - i < f1 → len - i < f2 →
    tokCountF f1 bf i len b = tokCountF f2 bf i len b := by
  intro f1
  induction f1 with
  | zero => intro f2 bf i len b h1 _; omega
  | succ f1 ih =>
      intro f2 bf i len b h1 h2
      cases f2 with
      | zero => omega
      | succ f2 =>
          rw [tokCountF, tokCountF]
          by_cases hi : i < len
          · rw [if_pos hi, if_pos hi, ih f2 bf (i + 1) len _ (by omega) (by omega)]
          · rw [if_neg hi, if_neg hi]

theorem tokCountFrom_lt {bf : List Nat} {i len : Nat} (b : Bool) (h : i < len) :
    tokCountFrom bf i len b =
      (if isWs (bget bf i) = false && b = false then 1 else 0) +
        tokCountFrom bf (i + 1) len (!isWs (bget bf i)) := by
  unfold tokCountFrom
  conv_lhs => rw [tokCountF]
  rw [if_pos h, tokCountF_irrel len (len + 1) bf (i + 1) len _ (by omega) (by omega)]

theorem tokCountFrom_ge {bf : List Nat} {i len : Nat} (b : Bool) (h : len ≤ i) :
    tokCountFrom bf i len b = 0 := by
  unfold tokCountFrom
  rw [tokCountF]
  rw [if_neg (by omega)]

theorem tokCountFrom_congr : ∀ (d : Nat) (bf bf' : List Nat) (i len : Nat) (b : Bool),
    len - i ≤ d → (∀ k, i ≤ k → k < len → bget bf k = bget bf' k) →
    tokCountFrom bf i len b = tokCountFrom bf' i len b := by
  intro d
  induction d with
  | zero =>
      intro bf bf' i len b hd _
      rw [tokCountFrom_ge b (by omega), tokCountFrom_ge b (by omega)]
  | succ d ih =>
      intro bf bf' i len b hd h
      by_cases hi : i < len
      · rw [tokCountFrom_lt b hi, tokCountFrom_lt b hi, h i le_rfl hi,
          ih bf bf' (i + 1) len _ (by omega) (fun k hk1 hk2 => h k (by omega) hk2)]
      · rw [tokCountFrom_ge b (by omega), tokCountFrom_ge b (by omega)]

theorem tokCountFrom_ws_run : ∀ (d : Nat) (bf : List Nat) (i j len : Nat),
    j - i ≤ d → i ≤ j → j ≤ len →
    (∀ k, i ≤ k → k < j → isWs (bget bf k) = true) →
    tokCountFrom bf i len false = tokCountFrom bf j len false := by
  intro d
  induction d with
  | zero =>
      intro bf i j len hd hij _ _
      have : i = j := by omega
      rw [this]
  | succ d ih =>
      intro bf i j len hd hij hjl h
      by_cases hlt : i < j
      · have hw : isWs (bget bf i) = true := h i le_rfl hlt
        rw [tokCountFrom_lt false (by omega), hw]
        simp only [Bool.not_true]
        rw [ih bf (i + 1) j len (by omega) (by omega) hjl
          (fun k hk1 hk2 => h k (by omega) hk2)]
        simp
      · have : i = j := by omega
        rw [this]

theorem tokCountFrom_tok_run : ∀ (d : Nat) (bf : List Nat) (i j len : Nat),
    j - i ≤ d → i ≤ j → j ≤ len →
    (∀ k, i ≤ k → k < j → isWs (bget bf k) = false) →
    tokCountFrom bf i len true = tokCountFrom bf j len true := by
  intro d
  induction d with
  | zero =>
      intro bf i j len hd hij _ _
      have : i = j := by omega
      rw [this]
  | succ d ih =>
      intro bf i j len hd hij hjl h
      by_cases hlt : i < j
      · have hw : isWs (bget bf i) = false := h i le_rfl hlt
        rw [tokCountFrom_lt true (by omega), hw]
        simp only [Bool.not_false]
        rw [ih bf (i + 1) j len (by omega) (by omega) hjl
          (fun k hk1 hk2 => h k (by omega) hk2)]
        simp
      · have : i = j := by omega
        rw [this]

theorem tokCountFrom_word_run (bf : List Nat) (i j len : Nat)
    (hij : i < j) (hjl : j ≤ len)
    (h : ∀ k, i ≤ k → k < j → isWs (bget bf k) = false) :
    tokCountFrom bf i len false = 1 + tokCountFrom bf j len true := by
  have hw : isWs (bget bf i) = false := h i le_rfl hij
  rw [tokCountFrom_lt false (by omega), hw]
  simp only [Bool.not_false]
  rw [tokCountFrom_tok_run (j - (i + 1)) bf (i + 1) j len le_rfl (by omega) hjl
    (fun k hk1 hk2 => h k (by omega) hk2)]
  simp

theorem tokCountFrom_true_false {bf : List Nat} {j len : Nat}
    (h : len ≤ j ∨ isWs (bget bf j) = true) :
    tokCountFrom bf j len true = tokCountFrom bf j len false := by
  rcases h with h | h
  · rw [tokCountFrom_ge true h, tokCountFrom_ge false h]
  · by_cases hj : j < len
    · rw [tokCountFrom_lt true hj, tokCountFrom_lt false hj, h]
      simp
    · rw [tokCountFrom_ge true (by omega), tokCountFrom_ge false (by omega)]

theorem skipWsF_spec : ∀ (fuel : Nat) (bf : List Nat) (i len : Nat), len - i < fuel →
    i ≤ (skipWsF fuel bf i len).2 ∧
    (skipWsF fuel bf i len).2 ≤ max i len ∧
    (∀ k, (skipWsF fuel bf i len).2 ≤ k → bget (skipWsF fuel bf i len).1 k = bget bf k) ∧
    (∀ k, i ≤ k → k < (skipWsF fuel bf i len).2 → isWs (bget bf k) = true) ∧
    ((skipWsF fuel bf i len).2 < len →
      isWs (bget (skipWsF fuel bf i len).1 (skipWsF fuel bf i len).2) = false) := by
  intro fuel
  induction fuel with
  | zero => intro bf i len h; omega
  | succ fuel ih =>
      intro bf i len hf
      rw [skipWsF]
      by_cases hi : i < len
      · by_cases hw : isWs (bget bf i) = true
        · rw [if_pos (by simp [hi, hw])]
          obtain ⟨h1, h2, h3, h4, h5⟩ := ih (bset bf i 0) (i + 1) len (by omega)
          refine ⟨by omega, by omega, ?_, ?_, h5⟩
          · intro k hk
            rw [h3 k hk, bget_bset_ne (by omega)]
          · intro k hk1 hk2
            by_cases hk : k = i
            · subst hk; exact hw
            · have := h4 k (by omega) hk2
              rwa [bget_bset_ne (by omega)] at this
        · have hw' : isWs (bget bf i) = false := by simpa using hw
          rw [if_neg (by simp [hw'])]
          exact ⟨le_rfl, le_max_left i len, fun k _ => rfl,
            fun k hk1 hk2 => by omega, fun _ => hw'⟩
      · rw [if_neg (by simp [hi])]
        exact ⟨le_rfl, le_max_left i len, fun k _ => rfl,
          fun k hk1 hk2 => by omega, fun h => absurd h hi⟩

theorem skipWs_spec (bf : List Nat) (i len : Nat) :
    i ≤ (skipWs bf i len).2 ∧
    (skipWs bf i len).2 ≤ max i len ∧
    (∀ k, (skipWs bf i len).2 ≤ k → bget (skipWs bf i len).1 k = bget bf k) ∧
    (∀ k, i ≤ k → k < (skipWs bf i len).2 → isWs (bget bf k) = true) ∧
    ((skipWs bf i len).2 < len →
      isWs (bget (skipWs bf i len).1 (skipWs bf i len).2) = false) :=
  skipWsF_spec (len + 1) bf i len (by omega)

theorem scanWordF_spec : ∀ (fuel : Nat) (bf : List Nat) (i len : Nat), len - i < fuel →
    i ≤ scanWordF fuel bf i len ∧
    scanWordF fuel bf i len ≤ max i len ∧
    (∀ k, i ≤ k → k < scanWordF fuel bf i len → isWs (bget bf k) = false) ∧
    (scanWordF fuel bf i len < len → isWs (bget bf (scanWordF fuel bf i len)) = true) := by
  intro fuel
  induction fuel with
  | zero => intro bf i len h; omega
  | succ fuel ih =>
      intro bf i len hf
      rw [scanWordF]
      by_cases hi : i < len
      · by_cases hw : isWs (bget bf i) = false
        · rw [if_pos (by simp [hi, hw])]
          obtain ⟨h1, h2, h3, h4⟩ := ih bf (i + 1) len (by omega)
          refine ⟨by omega, by omega, ?_, h4⟩
          intro k hk1 hk2
          by_cases hk : k = i
          · subst hk; exact hw
          · exact h3 k (by omega) hk2
        · have hw' : isWs (bget bf i) = true := by simpa using hw
          rw [if_neg (by simp [hw'])]
          exact ⟨le_rfl, le_max_left i len, fun k hk1 hk2 => by omega, fun _ => hw'⟩
      · rw [if_neg (by simp [hi])]
        exact ⟨le_rfl, le_max_left i len, fun k hk1 hk2 => by omega, fun h => absurd h hi⟩

theorem scanWord_spec (bf : List Nat) (i len : Nat) :
    i ≤ scanWord bf i len ∧
    scanWord bf i len ≤ max i len ∧
    (∀ k, i ≤ k → k < scanWord bf i len → isWs (bget bf k) = false) ∧
    (scanWord bf i len < len → isWs (bget bf (scanWord bf i len)) = true) :=
  scanWordF_spec (len + 1) bf i len (by omega)

theorem scanWord_gt (bf : List Nat) (i len : Nat) (hi : i < len)
    (hw : isWs (bget bf i) = false) : i < scanWord bf i len := by
  obtain ⟨h1, h2, h3, h4⟩ := scanWord_spec bf i len
  by_cases he : scanWord bf i len = i
  · rw [he] at h4
    rw [h4 hi] at hw
    simp at hw
  · omega

end Embsh

namespace Embsh

theorem bget_append_left {l l2 : List Nat} {k : Nat} (h : k < l.length) :
    bget (l ++ l2) k = bget l k := by
  simp [bget, List.getD_eq_getElem?_getD, List.getElem?_append, h]

/-- The outer `ShellSplit` loop on a quote-free region counts exactly
the whitespace-separated tokens, capped at `EMBSH_MAX_ARGS = 32`. -/
theorem splitLoopF_count : ∀ (fuel : Nat) (bf : List Nat) (i len argc : Nat)
    (starts : List Nat), len - i < fuel → argc ≤ 32 →
    (∀ k, i ≤ k → k < len → bget bf k ≠ 34 ∧ bget bf k ≠ 39) →
    (splitLoopF fuel bf i len argc starts).2.1 =
      min (argc + tokCountFrom bf i len false) 32 := by
  intro fuel
  induction fuel with
  | zero => intro bf i len argc starts hf _ _; omega
  | succ fuel ih =>
      intro bf i len argc starts hf ha hq
      rw [splitLoopF]
      by_cases hil : i < len
      · by_cases ha32 : argc < 32
        · rw [if_pos (by simp [hil, ha32])]
          dsimp only
          obtain ⟨s1, s2, s3, s4, s5⟩ := skipWs_spec bf i len
          by_cases hi1 : (skipWs bf i len).2 < len
          · rw [if_pos hi1]
            have hq1 : bget (skipWs bf i len).1 (skipWs bf i len).2 ≠ 34 ∧
                bget (skipWs bf i len).1 (skipWs bf i len).2 ≠ 39 := by
              rw [s3 _ le_rfl]
              exact hq _ s1 hi1
            rw [if_neg (by simp [hq1.1, hq1.2])]
            have hnw : isWs (bget (skipWs bf i len).1 (skipWs bf i len).2) = false :=
              s5 hi1
            obtain ⟨w1, w2, w3, w4⟩ :=
              scanWord_spec (skipWs bf i len).1 (skipWs bf i len).2 len
            have hgt : (skipWs bf i len).2 <
                scanWord (skipWs bf i len).1 (skipWs bf i len).2 len :=
              scanWord_gt _ _ _ hi1 hnw
            have hswle : scanWord (skipWs bf i len).1 (skipWs bf i len).2 len ≤ len := by
              omega
            have hrec := ih (skipWs bf i len).1
              (scanWord (skipWs bf i len).1 (skipWs bf i len).2 len) len (argc + 1)
              (starts ++ [(skipWs bf i len).2]) (by omega) (by omega)
              (fun k hk1 hk2 => by
                rw [s3 k (by omega)]
                exact hq k (by omega) hk2)
            rw [hrec]
            have tA : tokCountFrom bf i len false =
                tokCountFrom bf (skipWs bf i len).2 len false :=
              tokCountFrom_ws_run ((skipWs bf i len).2 - i) bf i (skipWs bf i len).2 len
                le_rfl s1 (by omega) s4
            have tB : tokCountFrom bf (skipWs bf i len).2 len false =
                tokCountFrom (skipWs bf i len).1 (skipWs bf i len).2 len false :=
              tokCountFrom_congr (len - (skipWs bf i len).2) bf (skipWs bf i len).1
                (skipWs bf i len).2 len false le_rfl
                (fun k hk1 hk2 => (s3 k hk1).symm)
            have tC : tokCountFrom (skipWs bf i len).1 (skipWs bf i len).2 len false =
                1 + tokCountFrom (skipWs bf i len).1
                  (scanWord (skipWs bf i len).1 (skipWs bf i len).2 len) len true :=
              tokCountFrom_word_run (skipWs bf i len).1 (skipWs bf i len).2
                (scanWord (skipWs bf i len).1 (skipWs bf i len).2 len) len hgt hswle w3
            have tD : tokCountFrom (skipWs bf i len).1
                  (scanWord (skipWs bf i len).1 (skipWs bf i len).2 len) len true =
                tokCountFrom (skipWs bf i len).1
                  (scanWord (skipWs bf i len).1 (skipWs bf i len).2 len) len false := by
              apply tokCountFrom_true_false
              by_cases hsl : scanWord (skipWs bf i len).1 (skipWs bf i len).2 len < len
              · exact Or.inr (w4 hsl)
              · exact Or.inl (by omega)
            rw [tA, tB, tC, tD]
            omega
          · rw [if_neg hi1]
            have t0 : tokCountFrom bf i len false = 0 := by
              rw [tokCountFrom_ws_run (len - i) bf i len len le_rfl (by omega) le_rfl
                (fun k hk1 hk2 => s4 k hk1 (by omega))]
              exact tokCountFrom_ge false le_rfl
            dsimp only
            rw [t0]
            omega
        · rw [if_neg (by simp [ha32])]
          dsimp only
          omega
      · rw [if_neg (by simp [hil])]
        dsimp only
        rw [tokCountFrom_ge false (by omega)]
        omega

/-! ### Claim C7 -/

/-- Claim C7 (counterexample): 33 whitespace-separated tokens
(`a a … a `) make `ShellSplit` return 32 — a normal argument count with
the 33rd token dropped — not the error (−1) its own doc comment and the
claim's "fails (reports an error)" promise; the `argc < EMBSH_MAX_ARGS`
loop guard stops parsing but the function still returns `argc`. -/
theorem shellSplit_caps_not_fails :
    (shellSplit (List.flatten (List.replicate 33 [97, 32]))).1 = 32 ∧
      tokCount (List.flatten (List.replicate 33 [97, 32])) = 33 :=
  ⟨by decide, by decide⟩

/-- Claim C7 (amended): on any quote-free line, `ShellSplit` returns
exactly the whitespace-separated token count when it is at most 32, and
caps the result at `ARG_CAP = 32` (rather than failing) when there are
more. -/
theorem shellSplit_token_count (line : List Nat)
    (hq : ∀ b ∈ line, b ≠ 34 ∧ b ≠ 39) :
    (shellSplit line).1 = min (tokCount line) 32 := by
  unfold shellSplit shellSplitBuf tokCount
  dsimp only
  rw [splitLoopF_count (line.length + 1) (line ++ [0]) 0 line.length 0 [] (by omega)
    (by omega)
    (fun k hk1 hk2 => by
      rw [bget_append_left hk2]
      have hm : bget line k ∈ line := by
        rw [bget, List.getD_eq_getElem?_getD, List.getElem?_eq_getElem hk2]
        simp [List.getElem_mem]
      exact hq _ hm)]
  rw [tokCountFrom_congr line.length (line ++ [0]) line 0 line.length false (by omega)
    (fun k hk1 hk2 => bget_append_left hk2)]
  simp

/-- Witness for `shellSplit_token_count`: the line `ab cd`. -/
theorem shellSplit_token_count_witness :
    (shellSplit (strBytes "ab cd")).1 = min (tokCount (strBytes "ab cd")) 32 :=
  shellSplit_token_count _ (by decide)

end Embsh

namespace Embsh

/-! ### RunAuth characterisation -/

/-- One `RunAuth` loop body step, seen from the comparison log: a
successful stop records exactly one matching pair; a continuing step
stays unauthenticated, records at most one pair, every recorded pair
fails the comparison, and `auth_attempts` grows by the number of
recorded (failed) pairs. -/
theorem authStepByte_cases (cu cp : List Nat) (st : AuthState) (b : Nat)
    (pk : Option Nat) (hna : st.authenticated = false) :
    ((authStepByte cu cp st b pk).stop = true →
      (authStepByte cu cp st b pk).st.authenticated = true ∧
      (authStepByte cu cp st b pk).pairs = [(st.userBuf, st.passBuf)] ∧
      st.userBuf = cu ∧ st.passBuf = cp ∧
      (authStepByte cu cp st b pk).st.attempts = st.attempts) ∧
    ((authStepByte cu cp st b pk).stop = false →
      (authStepByte cu cp st b pk).st.authenticated = false ∧
      (authStepByte cu cp st b pk).st.attempts =
        st.attempts + (authStepByte cu cp st b pk).pairs.length ∧
      (authStepByte cu cp st b pk).pairs.length ≤ 1 ∧
      ∀ q ∈ (authStepByte cu cp st b pk).pairs, ¬(q.1 = cu ∧ q.2 = cp)) := by
  obtain ⟨phase, ub, pb, att, auth, iac, tel⟩ := st
  dsimp only at hna
  subst hna
  cases phase <;>
    · unfold authStepByte
      dsimp only
      split_ifs <;> simp_all

end Embsh

namespace Embsh

theorem bool_eq_false_of_ne_true {b : Bool} (h : ¬b = true) : b = false := by
  cases b
  · rfl
  · exact absurd rfl h

/-- Over any input, the final `RunAuth` state is authenticated exactly
when some compared pair matched, and the number of compared pairs plus
the attempts already consumed never exceeds 3. -/
theorem runAuth_spec_aux (cu cp : List Nat) : ∀ (n : Nat) (input : List Nat),
    input.length ≤ n → ∀ st : AuthState, st.authenticated = false →
    st.attempts ≤ 3 →
    (((runAuth cu cp st input).1.authenticated = true ↔
        ∃ q ∈ (runAuth cu cp st input).2.2, q.1 = cu ∧ q.2 = cp) ∧
      (runAuth cu cp st input).2.2.length + st.attempts ≤ 3) := by
  intro n
  induction n with
  | zero =>
      intro input hlen st hna hatt
      cases input with
      | nil => simp [runAuth, hna, hatt]
      | cons b rest => simp at hlen
  | succ n ih =>
      intro input hlen st hna hatt
      cases input with
      | nil => simp [runAuth, hna, hatt]
      | cons b rest =>
          rw [runAuth.eq_def]
          dsimp only
          by_cases hg : st.attempts < 3
          · rw [if_pos hg]
            have hc := authStepByte_cases cu cp st b rest.head? hna
            by_cases hstop : (authStepByte cu cp st b rest.head?).stop = true
            · rw [if_pos hstop]
              obtain ⟨hauth, hpairs, hu, hp, hat⟩ := hc.1 hstop
              refine ⟨?_, ?_⟩
              · rw [hpairs]
                simp [hauth, hu, hp]
              · rw [hpairs]
                simp
                omega
            · rw [if_neg hstop]
              obtain ⟨hna', hat', hlen1, hfail⟩ :=
                hc.2 (bool_eq_false_of_ne_true hstop)
              have hat3 : (authStepByte cu cp st b rest.head?).st.attempts ≤ 3 := by
                omega
              by_cases htp : (authStepByte cu cp st b rest.head?).tookPeek = true
              · rw [if_pos htp]
                cases rest with
                | nil =>
                    dsimp only
                    refine ⟨⟨fun h => ?_, fun h => ?_⟩, ?_⟩
                    · rw [hna'] at h
                      exact Bool.noConfusion h
                    · obtain ⟨q, hq, hm⟩ := h
                      exact absurd hm (hfail q hq)
                    · omega
                | cons c rest2 =>
                    have ihr := ih rest2 (by simp at hlen; omega) _ hna' hat3
                    dsimp only
                    refine ⟨?_, ?_⟩
                    · rw [ihr.1]
                      constructor
                      · rintro ⟨q, hq, hm⟩
                        exact ⟨q, List.mem_append_right _ hq, hm⟩
                      · rintro ⟨q, hq, hm⟩
                        rcases List.mem_append.mp hq with hql | hqr
                        · exact absurd hm (hfail q hql)
                        · exact ⟨q, hqr, hm⟩
                    · rw [List.length_append]
                      have := ihr.2
                      omega
              · rw [if_neg htp]
                have ihr := ih rest (by simp at hlen; omega) _ hna' hat3
                dsimp only
                refine ⟨?_, ?_⟩
                · rw [ihr.1]
                  constructor
                  · rintro ⟨q, hq, hm⟩
                    exact ⟨q, List.mem_append_right _ hq, hm⟩
                  · rintro ⟨q, hq, hm⟩
                    rcases List.mem_append.mp hq with hql | hqr
                    · exact absurd hm (hfail q hql)
                    · exact ⟨q, hqr, hm⟩
                · rw [List.length_append]
                  have := ihr.2
                  omega
          · rw [if_neg hg]
            simp [hna, hatt]

end Embsh

namespace Embsh

/-- A mismatching password submission with attempts remaining emits the
retry message and restarts at the username prompt. -/
theorem runAuth_retry_step (cu cp : List Nat) (st : AuthState)
    (htel : st.telnet = false) (hna : st.authenticated = false)
    (hph : st.phase = .kPass) (hatt : st.attempts + 1 < 3)
    (hmis : ¬(st.userBuf = cu ∧ st.passBuf = cp)) :
    runAuth cu cp st [13] =
      ({ st with attempts := st.attempts + 1, phase := .kUser, userBuf := [] },
       [strBytes "\r\n", strBytes "Invalid credentials. Try again.\r\n",
         strBytes "Username: "],
       [(st.userBuf, st.passBuf)]) := by
  obtain ⟨phase, ub, pb, att, auth, iac, tel⟩ := st
  dsimp only at htel hna hph hatt hmis ⊢
  subst htel hna hph
  have hstep : authStepByte cu cp ⟨.kPass, ub, pb, att, false, iac, false⟩ 13 none =
      ⟨⟨.kUser, [], pb, att + 1, false, iac, false⟩,
        [strBytes "\r\n", strBytes "Invalid credentials. Try again.\r\n",
          strBytes "Username: "],
        [(ub, pb)], false, false⟩ := by
    unfold authStepByte
    split_ifs <;> simp_all
  rw [runAuth.eq_def]
  dsimp only
  simp only [List.head?_nil]
  rw [if_pos (show att < 3 by omega), hstep]
  dsimp only
  rw [runAuth.eq_def]
  simp

end Embsh

namespace Embsh

/-! ### Claim C9 -/

/-- Claim C9: driving the authentication sub-protocol from its initial
state over any input byte sequence, the session becomes authenticated
exactly when one of the submitted (compared) username/password pairs
equals the configured credentials byte for byte; at most 3 pairs are
ever compared (after the 3rd failed comparison the `auth_attempts < 3`
guard stops the protocol without authenticating); and a mismatching
pair with attempts remaining emits `Invalid credentials. Try again.`
and restarts at the `Username: ` prompt with the username buffer
reset. -/
theorem runAuth_spec (cu cp : List Nat) (telnet : Bool) (input : List Nat) :
    ((runAuth cu cp (authInit telnet) input).1.authenticated = true ↔
      ∃ q ∈ (runAuth cu cp (authInit telnet) input).2.2, q.1 = cu ∧ q.2 = cp) ∧
    (runAuth cu cp (authInit telnet) input).2.2.length ≤ 3 ∧
    (∀ st : AuthState, st.telnet = false → st.authenticated = false →
      st.phase = .kPass → st.attempts + 1 < 3 →
      ¬(st.userBuf = cu ∧ st.passBuf = cp) →
      runAuth cu cp st [13] =
        ({ st with attempts := st.attempts + 1, phase := .kUser, userBuf := [] },
         [strBytes "\r\n", strBytes "Invalid credentials. Try again.\r\n",
           strBytes "Username: "],
         [(st.userBuf, st.passBuf)])) := by
  have h := runAuth_spec_aux cu cp input.length input le_rfl (authInit telnet) rfl
    (Nat.zero_le 3)
  refine ⟨h.1, ?_, runAuth_retry_step cu cp⟩
  have h2 := h.2
  simpa [authInit] using h2

/-- Witness for `runAuth_spec`: the credentials `a` / `b`, the input
`a⏎b⏎` (a successful login), and one concrete retry step. -/
theorem runAuth_spec_witness :
    ((runAuth [97] [98] (authInit false) [97, 13, 98, 13]).1.authenticated = true ↔
      ∃ q ∈ (runAuth [97] [98] (authInit false) [97, 13, 98, 13]).2.2,
        q.1 = [97] ∧ q.2 = [98]) ∧
    (runAuth [97] [98] (authInit false) [97, 13, 98, 13]).2.2.length ≤ 3 ∧
    runAuth [97] [98] ⟨.kPass, [99], [100], 0, false, .kNormal, false⟩ [13] =
      (⟨.kUser, [], [100], 1, false, .kNormal, false⟩,
       [strBytes "\r\n", strBytes "Invalid credentials. Try again.\r\n",
         strBytes "Username: "],
       [([99], [100])]) := by
  have h := runAuth_spec [97] [98] false [97, 13, 98, 13]
  exact ⟨h.1, h.2.1,
    h.2.2 ⟨.kPass, [99], [100], 0, false, .kNormal, false⟩ rfl rfl rfl (by decide)
      (by decide)⟩

end Embsh
